import Mathlib

/-!
Job control core of `tsh` (src/tsh.c).

A shallow embedding of the job table (`struct job_t jobs[MAXJOBS]`, `nextjid`), the
job-list helper routines, the parent side of `eval`, `do_bgfg`, `waitfg` and the four
signal handlers, followed by theorems about them.

Conventions of the embedding:
* the array `jobs[MAXJOBS]` is a `List job_t` (a table of the shell has length `MAXJOBS`);
  a `for (i = 0; i < MAXJOBS; i++)` loop that returns at the first hit is `scan`;
* a `struct job_t *` is the index of the slot it points to, `NULL` is `none`;
* C `int`/`pid_t` values are `Int` (no arithmetic in the modelled code gets near the
  range of a machine word: job ids stay below `MAXJOBS + 2`);
* `printf` appends one string to `Sh.out`, `kill(p, sig)` appends `(p, sig)` to `Sh.kills`;
* dereferencing `NULL` has no defined result: the function returns `none`.
-/

namespace Tsh

/-! ## Data model -/

/-- Max jobs at any point in time: `#define MAXJOBS 16`. -/
def MAXJOBS : Nat := 16

/-- Job state `UNDEF` (undefined): `#define UNDEF 0`. -/
def UNDEF : Int := 0
/-- Job state `FG` (running in foreground): `#define FG 1`. -/
def FG : Int := 1
/-- Job state `BG` (running in background): `#define BG 2`. -/
def BG : Int := 2
/-- Job state `ST` (stopped): `#define ST 3`. -/
def ST : Int := 3

/-- The job struct `struct job_t`. -/
structure job_t where
  pid : Int
  jid : Int
  state : Int
  cmdline : String
deriving DecidableEq, Repr

/-- The signals the shell sends with `kill`. -/
inductive Sig where
  | SIGINT
  | SIGTSTP
  | SIGCONT
deriving DecidableEq, Repr

/-- The globals of the shell (`jobs`, `nextjid`, `verbose`) together with the trace of
its observable actions: the text written by `printf`, one entry per call, and the
`kill(pid, sig)` calls, in program order. -/
structure Sh where
  jobs : List job_t
  nextjid : Int
  verbose : Bool
  out : List String
  kills : List (Int × Sig)
deriving DecidableEq, Repr

/-- What `waitpid` reports about a child: `WIFSIGNALED`, `WIFSTOPPED` or `WIFEXITED`
(exactly one of them holds for a status obtained with `WNOHANG|WUNTRACED`), with the
signal number or the exit code it carries. -/
inductive Status where
  | signaled (sig : Int)
  | stopped (sig : Int)
  | exited (code : Int)
deriving DecidableEq, Repr

/-- How the polling loop of `waitfg` stands after its first test: the loop condition
was false and the function returned, or the job is in state `FG` and the main flow
sleeps, re-reading the state of that slot until a handler changes it. -/
inductive Wait where
  | returned
  | blocked (slot : Nat)
deriving DecidableEq, Repr

/-! ## Job list helper routines -/

/-- Index of the first slot satisfying `p`: the loop
`for (i = 0; i < MAXJOBS; i++) if (p(jobs[i])) return ...;`. -/
def scan (p : job_t → Bool) : List job_t → Option Nat
  | [] => none
  | j :: js => if p j then some 0 else (scan p js).map (· + 1)

/-- The value `clearjob` leaves in a slot. -/
def clearedJob : job_t := { pid := 0, jid := 0, state := UNDEF, cmdline := "" }

/-- Function `clearjob`: clear the entries in a job struct. -/
def clearjob (_job : job_t) : job_t := clearedJob

/-- The slot `jobs[i]` (read through a non-`NULL` pointer, so `i` is in range). -/
def slot (jobs : List job_t) (i : Nat) : job_t := jobs.getD i clearedJob

/-- Function `initjobs`: clear every slot. -/
def initjobs (jobs : List job_t) : List job_t := jobs.map clearjob

/-- Function `maxjid`: largest allocated job ID. -/
def maxjid (jobs : List job_t) : Int :=
  jobs.foldl (fun max j => if j.jid > max then j.jid else max) 0

/-- Function `addjob`: add a job to the job list; the second component is the return value. -/
def addjob (s : Sh) (pid state : Int) (cmdline : String) : Sh × Int :=
  if pid < 1 then (s, 0)
  else
    match scan (fun j => j.pid == 0) s.jobs with
    | some i =>
      let jid := s.nextjid
      let next := s.nextjid + 1
      let next := if next > (MAXJOBS : Int) then 1 else next
      let jobs := s.jobs.set i { pid := pid, jid := jid, state := state, cmdline := cmdline }
      let out :=
        if s.verbose then
          s.out ++ ["Added job [" ++ toString jid ++ "] " ++ toString pid ++ " " ++ cmdline ++ "\n"]
        else s.out
      ({ s with jobs := jobs, nextjid := next, out := out }, 1)
    | none => ({ s with out := s.out ++ ["Tried to create too many jobs\n"] }, 0)

/-- Function `removejob`: delete a job whose PID=pid from the job list; the second component is
the return value. -/
def removejob (s : Sh) (pid : Int) : Sh × Int :=
  if pid < 1 then (s, 0)
  else
    match scan (fun j => j.pid == pid) s.jobs with
    | some i =>
      let jobs := s.jobs.set i (clearjob (slot s.jobs i))
      ({ s with jobs := jobs, nextjid := maxjid jobs + 1 }, 1)
    | none => (s, 0)

/-- Function `fgpid`: PID of the current foreground job, 0 if no such job. -/
def fgpid (jobs : List job_t) : Int :=
  match scan (fun j => j.state == FG) jobs with
  | some i => (slot jobs i).pid
  | none => 0

/-- Function `getprocessid`: find a job (by PID) on the job list. -/
def getprocessid (jobs : List job_t) (pid : Int) : Option Nat :=
  if pid < 1 then none else scan (fun j => j.pid == pid) jobs

/-- Function `getjobid`: find a job (by JID) on the job list. -/
def getjobid (jobs : List job_t) (jid : Int) : Option Nat :=
  if jid < 1 then none else scan (fun j => j.jid == jid) jobs

/-- Function `get_jid_from_pid`: map process ID to job ID. -/
def get_jid_from_pid (jobs : List job_t) (pid : Int) : Int :=
  if pid < 1 then 0
  else
    match scan (fun j => j.pid == pid) jobs with
    | some i => (slot jobs i).jid
    | none => 0

/-- The assignment `job->state = st` through the pointer to slot `i`. -/
def setState (jobs : List job_t) (i : Nat) (st : Int) : List job_t :=
  jobs.set i { slot jobs i with state := st }

/-! ## Main flow: `waitfg`, the parent side of `eval`, `do_bgfg` -/

/-- Function `waitfg`: `job = getprocessid(jobs, pid); while (job->state == FG) sleep(1);`.
`none` when `job` is `NULL`. -/
def waitfg (s : Sh) (pid : Int) : Option Wait :=
  match getprocessid s.jobs pid with
  | none => none
  | some i => if (slot s.jobs i).state = FG then some (Wait.blocked i) else some Wait.returned

/-- The text of `printf("[%d] (%d) %s", jid, pid, cmdline)`. -/
def announce (jid pid : Int) (cmdline : String) : String :=
  "[" ++ toString jid ++ "] (" ++ toString pid ++ ") " ++ cmdline

/-- The parent side of `eval` after `fork` returned `pidVal` (tsh.c lines 226-237):
`backg` is the flag computed by `parseline`. -/
def eval_parent (s : Sh) (pidVal : Int) (backg : Bool) (cmdline : String) :
    Option (Sh × Wait) :=
  if backg = false then
    let s1 := (addjob s pidVal FG cmdline).1
    (waitfg s1 pidVal).map (fun w => (s1, w))
  else
    let s1 := (addjob s pidVal BG cmdline).1
    let jid := get_jid_from_pid s1.jobs pidVal
    match getjobid s1.jobs jid with
    | none => none
    | some k =>
      some ({ s1 with out := s1.out ++ [announce (slot s1.jobs k).jid (slot s1.jobs k).pid cmdline] },
        Wait.returned)

/-- The character `a[0]` of a C string (the terminating NUL for the empty string). -/
def firstChar (a : String) : Char := a.data.headD (Char.ofNat 0)

/-- Lines 435-447 of `do_bgfg`: `job` points to slot `k`, `pidVal` is set. -/
def do_bgfg_resume (s : Sh) (argv0 : String) (k : Nat) (pidVal : Int) : Option (Sh × Wait) :=
  if argv0 = "bg" then
    let job := slot s.jobs k
    some ({ s with kills := s.kills ++ [(-pidVal, Sig.SIGCONT)],
                   out := s.out ++ [announce job.jid job.pid job.cmdline],
                   jobs := setState s.jobs k BG }, Wait.returned)
  else
    let s1 := { s with kills := s.kills ++ [(-pidVal, Sig.SIGCONT)],
                       jobs := setState s.jobs k FG }
    (waitfg s1 pidVal).map (fun w => (s1, w))

/-- Function `do_bgfg`: the builtin bg and fg commands. `argv0` is `argv[0]`, `argv1` is
`argv[1]` (`none` for `NULL`); `atoi` is the C library function. -/
def do_bgfg (atoi : String → Int) (s : Sh) (argv0 : String) (argv1 : Option String) :
    Option (Sh × Wait) :=
  match argv1 with
  | none =>
    some ({ s with out := s.out ++ [argv0 ++ " command requires PID or Jjobid argument\n"] },
      Wait.returned)
  | some a =>
    if (firstChar a).isDigit then
      let pidVal := atoi a
      match getprocessid s.jobs pidVal with
      | none => some ({ s with out := s.out ++ ["(" ++ a ++ "): No such process\n"] }, Wait.returned)
      | some k => do_bgfg_resume s argv0 k pidVal
    else if firstChar a = 'J' then
      let jiD := atoi (a.drop 1)
      match getjobid s.jobs jiD with
      | none => some ({ s with out := s.out ++ [a ++ ": No such job\n"] }, Wait.returned)
      | some k => do_bgfg_resume s argv0 k (slot s.jobs k).pid
    else
      some ({ s with out := s.out ++ [argv0 ++ " argument must be PID or Jjobid\n"] },
        Wait.returned)

/-! ## Signal handlers -/

/-- Handler `sigtstp_handler`: forward SIGTSTP to the group of the foreground job and
mark the job looked up by that job's jid as stopped. `none` when `job` is `NULL` at
`job->state = ST`. -/
def sigtstp_handler (s : Sh) : Option Sh :=
  let pidVal := fgpid s.jobs
  let jidVal := get_jid_from_pid s.jobs pidVal
  if pidVal ≠ 0 then
    match getjobid s.jobs jidVal with
    | none => none
    | some k =>
      some { s with kills := s.kills ++ [(-pidVal, Sig.SIGTSTP)], jobs := setState s.jobs k ST }
  else some s

/-- Handler `sigint_handler`: forward SIGINT to the group of the foreground job. -/
def sigint_handler (s : Sh) : Sh :=
  let pidVal := fgpid s.jobs
  if pidVal ≠ 0 then { s with kills := s.kills ++ [(-pidVal, Sig.SIGINT)] } else s

/-- The body of the `while` loop of `sigchld_handler` for one reaped `(pidVal, stVal)`. -/
def sigchld_body (s : Sh) (pidVal : Int) (stVal : Status) : Option Sh :=
  match stVal with
  | Status.signaled _ =>
    let jidVal := get_jid_from_pid s.jobs pidVal
    let s1 := { s with out := s.out ++
      ["Job [" ++ toString jidVal ++ "] (" ++ toString pidVal ++ ") terminated by signal 2\n"] }
    some (removejob s1 pidVal).1
  | Status.stopped _ =>
    let jidVal := get_jid_from_pid s.jobs pidVal
    let s1 := { s with out := s.out ++
      ["Job [" ++ toString jidVal ++ "] (" ++ toString pidVal ++ ") stopped by signal 20\n"] }
    sigtstp_handler s1
  | Status.exited _ => some (removejob s pidVal).1

/-- Handler `sigchld_handler`: `reaped` is the sequence of results of the successive
`waitpid(-1, &stVal, WNOHANG|WUNTRACED)` calls; the loop ends at the first result that
is not positive (or when the sequence is exhausted). -/
def sigchld_handler : Sh → List (Int × Status) → Option Sh
  | s, [] => some s
  | s, (pidVal, stVal) :: rest =>
    if pidVal > 0 then
      match sigchld_body s pidVal stVal with
      | none => none
      | some s1 => sigchld_handler s1 rest
    else some s

/-- The `for (int i = 1; i < MAXJOBS; i++)` loop of `sigalrm_handler`, over the
remaining values of `i`. -/
def sigalrm_loop (jobs : List job_t) : List Nat → List (Int × Sig) → List (Int × Sig)
  | [], kills => kills
  | i :: rest, kills =>
    match getjobid jobs (i : Int) with
    | none => kills
    | some k => sigalrm_loop jobs rest (kills ++ [((slot jobs k).pid, Sig.SIGINT)])

/-- Handler `sigalrm_handler`: nothing when `maxjid` is 0, else the loop over job ids. -/
def sigalrm_handler (s : Sh) : Sh :=
  if maxjid s.jobs = 0 then s
  else { s with kills := sigalrm_loop s.jobs (List.range' 1 (MAXJOBS - 1)) s.kills }

/-- The shell right after `initjobs(jobs)` in `main`, with `nextjid = 1`. -/
def initSh (verbose : Bool) : Sh :=
  { jobs := initjobs (List.replicate MAXJOBS clearedJob), nextjid := 1, verbose := verbose,
    out := [], kills := [] }

/-! ## The shell as a transition system -/

/-- The shell between two steps: its globals and trace, and the slot that the main
flow's current (or last) `waitfg` polls. -/
structure Sys where
  sh : Sh
  waiting : Option Nat
deriving DecidableEq, Repr

/-- The slot a `waitfg` outcome leaves the main flow polling. -/
def waitSlot : Wait → Option Nat
  | Wait.returned => none
  | Wait.blocked i => some i

/-- The main flow can issue its next command: it is not inside `waitfg`, or the loop
condition `job->state == FG` of its `waitfg` is now false, so `waitfg` returns. -/
def ready (y : Sys) : Prop :=
  match y.waiting with
  | none => True
  | some i => (slot y.sh.jobs i).state ≠ FG

/-- One step of the shell: a command of the main flow (enabled when `ready`), or a
signal handler (enabled at any time). In `launch`, `pidVal` is whatever `fork` returned
in the parent; `eval` registers it as it is. A handler runs between two steps of the
main flow: a `sigchld` step before a `launch` is the handler running after `fork` and
before `addjob` (no signal is blocked there). A step whose function dereferences
`NULL` has no successor. -/
inductive Step : Sys → Sys → Prop where
  | launch (y : Sys) (pidVal : Int) (backg : Bool) (cmdline : String) (s1 : Sh) (w : Wait) :
      ready y → eval_parent y.sh pidVal backg cmdline = some (s1, w) →
      Step y { sh := s1, waiting := waitSlot w }
  | bgfg (y : Sys) (atoi : String → Int) (argv0 : String) (argv1 : Option String)
      (s1 : Sh) (w : Wait) :
      ready y → do_bgfg atoi y.sh argv0 argv1 = some (s1, w) →
      Step y { sh := s1, waiting := waitSlot w }
  | sigchld (y : Sys) (reaped : List (Int × Status)) (s1 : Sh) :
      sigchld_handler y.sh reaped = some s1 → Step y { sh := s1, waiting := y.waiting }
  | sigint (y : Sys) : Step y { sh := sigint_handler y.sh, waiting := y.waiting }
  | sigtstp (y : Sys) (s1 : Sh) :
      sigtstp_handler y.sh = some s1 → Step y { sh := s1, waiting := y.waiting }
  | sigalrm (y : Sys) : Step y { sh := sigalrm_handler y.sh, waiting := y.waiting }

/-- The states the shell reaches from `initSh`. -/
inductive Reachable : Sys → Prop where
  | init (verbose : Bool) : Reachable { sh := initSh verbose, waiting := none }
  | step (y y1 : Sys) : Reachable y → Step y y1 → Reachable y1

/-- The steps of `Step` in which a launch gets a pid that no slot of the table
holds. The code does not ensure this: a child reaped before `addjob` registers it
keeps its slot for good, and the system may hand its pid out again. -/
inductive FreshStep : Sys → Sys → Prop where
  | launch (y : Sys) (pidVal : Int) (backg : Bool) (cmdline : String) (s1 : Sh) (w : Wait) :
      ready y → (∀ j ∈ y.sh.jobs, j.pid ≠ pidVal) →
      eval_parent y.sh pidVal backg cmdline = some (s1, w) →
      FreshStep y { sh := s1, waiting := waitSlot w }
  | bgfg (y : Sys) (atoi : String → Int) (argv0 : String) (argv1 : Option String)
      (s1 : Sh) (w : Wait) :
      ready y → do_bgfg atoi y.sh argv0 argv1 = some (s1, w) →
      FreshStep y { sh := s1, waiting := waitSlot w }
  | sigchld (y : Sys) (reaped : List (Int × Status)) (s1 : Sh) :
      sigchld_handler y.sh reaped = some s1 → FreshStep y { sh := s1, waiting := y.waiting }
  | sigint (y : Sys) : FreshStep y { sh := sigint_handler y.sh, waiting := y.waiting }
  | sigtstp (y : Sys) (s1 : Sh) :
      sigtstp_handler y.sh = some s1 → FreshStep y { sh := s1, waiting := y.waiting }
  | sigalrm (y : Sys) : FreshStep y { sh := sigalrm_handler y.sh, waiting := y.waiting }

/-- The states reached from `initSh` by steps of `FreshStep` only. -/
inductive FreshReachable : Sys → Prop where
  | init (verbose : Bool) : FreshReachable { sh := initSh verbose, waiting := none }
  | step (y y1 : Sys) : FreshReachable y → FreshStep y y1 → FreshReachable y1

/-- The shell after the parent side of `eval` ran (unchanged if it has no result). -/
def launched (s : Sh) (pidVal : Int) (backg : Bool) (cmdline : String) : Sh :=
  match eval_parent s pidVal backg cmdline with
  | some (s1, _) => s1
  | none => s

/-- Three launches from the empty table: `true &` with child pid 5, which is reaped
before it is registered; then `cat` in the foreground, whose child gets pid 5 again;
then `vi` in the foreground with child pid 6. -/
def raceSh : Sh :=
  launched (launched (launched (initSh false) 5 true "true &\n") 5 false "cat\n") 6 false "vi\n"

/-- Number of slots in state `FG`. -/
def countFG (jobs : List job_t) : Nat := jobs.countP (fun j => j.state == FG)

/-- Live pids are pairwise distinct: two slots that hold the same non-zero pid are
the same slot. -/
def DistinctPids (jobs : List job_t) : Prop :=
  ∀ (i j : Nat) (a b : job_t), jobs[i]? = some a → jobs[j]? = some b →
    a.pid ≠ 0 → a.pid = b.pid → i = j

/-- Every slot in state `FG` is the slot that `waitfg` polls. -/
def FgWaited (jobs : List job_t) (waiting : Option Nat) : Prop :=
  ∀ (i : Nat) (a : job_t), jobs[i]? = some a → a.state = FG → waiting = some i

/-! ## Runs of job-list operations and the tables used as concrete inputs -/

/-- A call of `addjob` or of `removejob`. -/
inductive Op where
  | add (pid state : Int) (cmdline : String)
  | remove (pid : Int)
deriving DecidableEq, Repr

/-- Perform one call. -/
def runOp (s : Sh) : Op → Sh
  | Op.add pid state cmdline => (addjob s pid state cmdline).1
  | Op.remove pid => (removejob s pid).1

/-- Perform the calls in order. -/
def runOps (s : Sh) (ops : List Op) : Sh := ops.foldl runOp s

/-- Launch background jobs with pids `1 .. n`. -/
def addRange (n : Nat) : List Op :=
  (List.range' 1 n).map (fun p => Op.add (p : Int) BG "sleep 100 &\n")

/-- Fifteen background jobs (pids 1..15), job 2 is reaped, then a background job
(pid 16) and a foreground job (pid 17) are launched: all pids are distinct. -/
def wrapOps : List Op :=
  addRange 15 ++ [Op.remove 2, Op.add 16 BG "sleep 100 &\n", Op.add 17 FG "sleep 100\n"]

/-- The table that `wrapOps` builds from the empty one. -/
def wrapSh : Sh := runOps (initSh false) wrapOps

/-- A background job (pid 20, jid 1) is launched, then a foreground job (pid 10,
jid 2). -/
def bgFgSh : Sh := runOps (initSh false) [Op.add 20 BG "sleep 100 &\n", Op.add 10 FG "cat\n"]

/-- Two background jobs (pids 10 and 20), then the first is reaped: the only live
job has jid 2. -/
def gapSh : Sh :=
  runOps (initSh false) [Op.add 10 BG "sleep 1 &\n", Op.add 20 BG "sleep 100 &\n", Op.remove 10]

/-- Sixteen background jobs (pids 1..16): no slot is free, the last job has jid 16. -/
def fullSh : Sh := runOps (initSh false) (addRange 16)

/-- The live jobs' jids are pairwise distinct: two live slots with the same jid are
the same slot. -/
def DistinctJids (jobs : List job_t) : Prop :=
  ∀ (i j : Nat) (a b : job_t), jobs[i]? = some a → jobs[j]? = some b →
    a.pid ≠ 0 → b.pid ≠ 0 → a.jid = b.jid → i = j

/-- Free slots are cleared: a slot with `pid == 0` has `jid == 0`. -/
def FreeCleared (jobs : List job_t) : Prop := ∀ j ∈ jobs, j.pid = 0 → j.jid = 0

instance (jobs : List job_t) : Decidable (FreeCleared jobs) := by
  unfold FreeCleared; infer_instance

/-! ## The C library function `atoi` -/

/-- C `isspace` in the "C" locale: space, `\t`, `\n`, `\v`, `\f`, `\r`. -/
def isspace (c : Char) : Bool :=
  c.toNat == 32 || (decide (9 ≤ c.toNat) && decide (c.toNat ≤ 13))

/-- Value of the longest run of decimal digits at the head of `cs`, continuing `acc`. -/
def digitsVal (acc : Int) : List Char → Int
  | [] => acc
  | c :: cs => if c.isDigit then digitsVal (acc * 10 + ((c.toNat : Int) - 48)) cs else acc

/-- The value of a C `long` holding `v` after `strtol` saturated it:
`LONG_MIN <= v <= LONG_MAX` on LP64. -/
def clampLong (v : Int) : Int :=
  if v > 9223372036854775807 then 9223372036854775807
  else if v < -9223372036854775808 then -9223372036854775808
  else v

/-- The conversion `(int) v` of a `long`: reduction modulo `2^32` into
`[-2^31, 2^31)`. -/
def toInt32 (v : Int) : Int := (v + 2147483648) % 4294967296 - 2147483648

/-- The C library `atoi` as glibc has it on LP64, `(int) strtol(a, NULL, 10)`: leading
white space is skipped, an optional sign is read, then the decimal digits up to the
first other character (0 if there is none); the value saturates at the range of `long`
and is then converted to `int`. The functions of this file that call `atoi` take it as
a parameter; `c_atoi` is the instance used on concrete inputs. -/
def c_atoi (a : String) : Int :=
  toInt32 (clampLong
    (match a.data.dropWhile isspace with
     | '-' :: r => - digitsVal 0 r
     | '+' :: r => digitsVal 0 r
     | cs => digitsVal 0 cs))

/-! ## Further tables and table properties -/

/-- Launch background jobs with pids `base .. base + n - 1`. -/
def addFrom (base n : Nat) : List Op :=
  (List.range' base n).map (fun p => Op.add (p : Int) BG "sleep 100 &\n")

/-- Fifteen background jobs (pids 101..115, jids 1..15), job 102 is reaped, then two
more background jobs are launched: pid 116 gets jid 16 and pid 117 gets jid 1, which
pid 101 still holds. -/
def dupJidSh : Sh :=
  runOps (initSh false)
    (addFrom 101 15 ++
      [Op.remove 102, Op.add 116 BG "sleep 200 &\n", Op.add 117 BG "sleep 300 &\n"])

/-- Foreground slots are live: a slot in state `FG` has `pid != 0`. -/
def FgLive (jobs : List job_t) : Prop := ∀ j ∈ jobs, j.state = FG → j.pid ≠ 0

instance (jobs : List job_t) : Decidable (FgLive jobs) := by
  unfold FgLive; infer_instance

/-! ## Lemmas on `scan` -/

theorem scan_some {p : job_t → Bool} :
    ∀ {l : List job_t} {i : Nat}, scan p l = some i → ∃ a, l[i]? = some a ∧ p a = true := by
  intro l
  induction l with
  | nil => intro i h; simp [scan] at h
  | cons a l ih =>
    intro i h
    unfold scan at h
    by_cases hp : p a = true
    · simp [hp] at h; subst h; exact ⟨a, by simp, hp⟩
    · simp [hp] at h
      obtain ⟨k, hk, rfl⟩ := h
      obtain ⟨b, hb, hpb⟩ := ih hk
      exact ⟨b, by simpa using hb, hpb⟩

theorem scan_first {p : job_t → Bool} :
    ∀ {l : List job_t} {i : Nat}, scan p l = some i →
      ∀ k a, k < i → l[k]? = some a → p a = false := by
  intro l
  induction l with
  | nil => intro i h; simp [scan] at h
  | cons a l ih =>
    intro i h k b hk hb
    unfold scan at h
    by_cases hp : p a = true
    · simp [hp] at h; subst h; omega
    · simp [hp] at h
      obtain ⟨m, hm, rfl⟩ := h
      cases k with
      | zero => simp at hb; subst hb; simpa using hp
      | succ k => exact ih hm k b (by omega) (by simpa using hb)

theorem scan_none {p : job_t → Bool} :
    ∀ {l : List job_t}, scan p l = none → ∀ a ∈ l, p a = false := by
  intro l
  induction l with
  | nil => intro _ a ha; simp at ha
  | cons a l ih =>
    intro h b hb
    unfold scan at h
    by_cases hp : p a = true
    · simp [hp] at h
    · simp [hp] at h
      rcases List.mem_cons.1 hb with rfl | hb
      · simpa using hp
      · exact ih h b hb

theorem scan_eq_some {p : job_t → Bool} :
    ∀ {l : List job_t} {i : Nat} {a : job_t}, l[i]? = some a → p a = true →
      (∀ k b, k < i → l[k]? = some b → p b = false) → scan p l = some i := by
  intro l
  induction l with
  | nil => intro i a h; simp at h
  | cons c l ih =>
    intro i a h hp hfirst
    cases i with
    | zero => simp at h; subst h; simp [scan, hp]
    | succ i =>
      have hc : p c = false := hfirst 0 c (by omega) (by simp)
      have := ih (i := i) (a := a) (by simpa using h) hp
        (fun k b hk hb => hfirst (k + 1) b (by omega) (by simpa using hb))
      simp [scan, hc, this]

theorem scan_eq_none {p : job_t → Bool} {l : List job_t} (h : ∀ a ∈ l, p a = false) :
    scan p l = none := by
  induction l with
  | nil => rfl
  | cons c l ih =>
    have hc : p c = false := h c (List.mem_cons_self _ _)
    simp [scan, hc, ih (fun a ha => h a (List.mem_cons_of_mem _ ha))]

theorem scan_lt {p : job_t → Bool} {l : List job_t} {i : Nat} (h : scan p l = some i) :
    i < l.length := by
  obtain ⟨a, ha, _⟩ := scan_some h
  exact (List.getElem?_eq_some.1 ha).1

theorem slot_eq {l : List job_t} {i : Nat} {a : job_t} (h : l[i]? = some a) : slot l i = a := by
  simp [slot, List.getD, h]

/-! ## Table invariants and their preservation -/

theorem set_getElem?_some {l : List job_t} {i k : Nat} {b c : job_t}
    (h : (l.set i b)[k]? = some c) : (k = i ∧ c = b) ∨ (k ≠ i ∧ l[k]? = some c) := by
  rw [List.getElem?_set] at h
  by_cases hik : i = k
  · subst hik
    by_cases hlt : i < l.length
    · simp [hlt] at h; exact Or.inl ⟨rfl, h.symm⟩
    · simp [hlt] at h
  · simp [hik] at h
    exact Or.inr ⟨fun e => hik e.symm, h⟩

theorem distinct_set {l : List job_t} {i : Nat} {b : job_t} (hd : DistinctPids l)
    (hb : ∀ (j : Nat) (c : job_t), j ≠ i → l[j]? = some c → b.pid ≠ 0 → c.pid ≠ b.pid) :
    DistinctPids (l.set i b) := by
  intro i1 j1 a1 b1 h1 h2 hne heq
  rcases set_getElem?_some h1 with ⟨e1, rfl⟩ | ⟨n1, g1⟩
  · rcases set_getElem?_some h2 with ⟨e2, _⟩ | ⟨n2, g2⟩
    · rw [e1, e2]
    · exact absurd heq.symm (hb j1 b1 n2 g2 hne)
  · rcases set_getElem?_some h2 with ⟨e2, rfl⟩ | ⟨n2, g2⟩
    · exact absurd heq (hb i1 a1 n1 g1 (heq ▸ hne))
    · exact hd i1 j1 a1 b1 g1 g2 hne heq

theorem distinct_set_zero {l : List job_t} (i : Nat) {b : job_t} (hd : DistinctPids l)
    (hb : b.pid = 0) : DistinctPids (l.set i b) :=
  distinct_set hd (fun _ _ _ _ h => absurd hb h)

theorem distinct_setState {l : List job_t} (k : Nat) (st : Int) (hd : DistinctPids l) :
    DistinctPids (setState l k st) := by
  unfold setState
  apply distinct_set hd
  intro j c hj hc hne heq
  cases hk : l[k]? with
  | none => simp [slot, hk, clearedJob] at hne
  | some a =>
    have hs : slot l k = a := slot_eq hk
    simp only [hs] at hne heq
    exact hj (hd j k c a hc hk (heq ▸ hne) heq)

theorem fgWaited_set {l : List job_t} {w : Option Nat} (i : Nat) {b : job_t}
    (hf : FgWaited l w) (hb : b.state ≠ FG) : FgWaited (l.set i b) w := by
  intro k c hk hc
  rcases set_getElem?_some hk with ⟨_, rfl⟩ | ⟨_, g⟩
  · exact absurd hc hb
  · exact hf k c g hc

theorem fgWaited_setState {l : List job_t} {w : Option Nat} (k : Nat) {st : Int}
    (hf : FgWaited l w) (hst : st ≠ FG) : FgWaited (setState l k st) w :=
  fgWaited_set k hf hst

/-- The table after `removejob` is the old table, or the old table with one slot cleared. -/
theorem removejob_jobs (s : Sh) (pid : Int) :
    (removejob s pid).1.jobs = s.jobs ∨ ∃ i, (removejob s pid).1.jobs = s.jobs.set i clearedJob := by
  unfold removejob
  by_cases hp : pid < 1
  · simp [hp]
  · cases hs : scan (fun j => j.pid == pid) s.jobs with
    | none => simp [hp]
    | some i => right; exact ⟨i, by simp [hp, clearjob]⟩

/-- The table after `sigtstp_handler` is the old table, or the old table with one
slot's state set to `ST`. -/
theorem sigtstp_jobs {s s1 : Sh} (h : sigtstp_handler s = some s1) :
    s1.jobs = s.jobs ∨ ∃ k, s1.jobs = setState s.jobs k ST := by
  unfold sigtstp_handler at h
  by_cases hp : fgpid s.jobs = 0
  · simp [hp] at h; left; rw [← h]
  · cases hg : getjobid s.jobs (get_jid_from_pid s.jobs (fgpid s.jobs)) with
    | none => simp [hp, hg] at h
    | some k => simp [hp, hg] at h; right; exact ⟨k, by rw [← h]⟩

theorem removejob_inv (s : Sh) (pid : Int) (w : Option Nat)
    (h : DistinctPids s.jobs ∧ FgWaited s.jobs w) :
    DistinctPids (removejob s pid).1.jobs ∧ FgWaited (removejob s pid).1.jobs w := by
  rcases removejob_jobs s pid with e | ⟨i, e⟩
  · rw [e]; exact h
  · rw [e]
    exact ⟨distinct_set_zero i h.1 rfl, fgWaited_set i h.2 (by decide)⟩

theorem sigtstp_inv {s s1 : Sh} (w : Option Nat) (hs : sigtstp_handler s = some s1)
    (h : DistinctPids s.jobs ∧ FgWaited s.jobs w) :
    DistinctPids s1.jobs ∧ FgWaited s1.jobs w := by
  rcases sigtstp_jobs hs with e | ⟨k, e⟩
  · rw [e]; exact h
  · rw [e]
    exact ⟨distinct_setState k ST h.1, fgWaited_setState k h.2 (by decide)⟩

theorem sigchld_body_inv {s s1 : Sh} {pidVal : Int} {stVal : Status} (w : Option Nat)
    (hs : sigchld_body s pidVal stVal = some s1)
    (h : DistinctPids s.jobs ∧ FgWaited s.jobs w) :
    DistinctPids s1.jobs ∧ FgWaited s1.jobs w := by
  cases stVal with
  | signaled sig =>
    simp only [sigchld_body, Option.some.injEq] at hs
    rw [← hs]
    exact removejob_inv _ pidVal w h
  | stopped sig =>
    simp only [sigchld_body] at hs
    exact sigtstp_inv w hs h
  | exited code =>
    simp only [sigchld_body, Option.some.injEq] at hs
    rw [← hs]
    exact removejob_inv _ pidVal w h

theorem sigchld_inv (w : Option Nat) :
    ∀ (reaped : List (Int × Status)) {s s1 : Sh}, sigchld_handler s reaped = some s1 →
      DistinctPids s.jobs ∧ FgWaited s.jobs w → DistinctPids s1.jobs ∧ FgWaited s1.jobs w := by
  intro reaped
  induction reaped with
  | nil => intro s s1 hs h; simp [sigchld_handler] at hs; rw [← hs]; exact h
  | cons ev rest ih =>
    intro s s1 hs h
    obtain ⟨pidVal, stVal⟩ := ev
    unfold sigchld_handler at hs
    by_cases hp : pidVal > 0
    · simp only [hp, if_true] at hs
      cases hb : sigchld_body s pidVal stVal with
      | none => simp [hb] at hs
      | some s2 =>
        simp only [hb] at hs
        exact ih hs (sigchld_body_inv w hb h)
    · simp [hp] at hs; rw [← hs]; exact h

theorem countP_le_one {p : job_t → Bool} : ∀ (l : List job_t),
    (∀ (i j : Nat) (a b : job_t), l[i]? = some a → l[j]? = some b →
      p a = true → p b = true → i = j) → l.countP p ≤ 1 := by
  intro l
  induction l with
  | nil => intro _; simp
  | cons c l ih =>
    intro h
    by_cases hc : p c = true
    · have hz : l.countP p = 0 := by
        rw [List.countP_eq_zero]
        intro b hb hpb
        obtain ⟨n, hn⟩ := List.getElem?_of_mem hb
        have := h 0 (n + 1) c b (by simp) (by simpa using hn) hc hpb
        omega
      simp [List.countP_cons, hc, hz]
    · have e : (c :: l).countP p = l.countP p := by simp [List.countP_cons, hc]
      rw [e]
      apply ih
      intro i j a b hi hj ha hb
      have := h (i + 1) (j + 1) a b (by simpa using hi) (by simpa using hj) ha hb
      omega

theorem countFG_le_one {l : List job_t} {w : Option Nat} (hf : FgWaited l w) :
    countFG l ≤ 1 := by
  apply countP_le_one
  intro i j a b hi hj ha hb
  have h1 := hf i a hi (by simpa using ha)
  have h2 := hf j b hj (by simpa using hb)
  rw [h1] at h2
  exact Option.some.inj h2

theorem fgWaited_of_noFG {l : List job_t} (w : Option Nat)
    (hno : ∀ (i : Nat) (a : job_t), l[i]? = some a → a.state ≠ FG) : FgWaited l w :=
  fun i a hi hst => absurd hst (hno i a hi)

theorem noFG_of_ready {y : Sys} (hf : FgWaited y.sh.jobs y.waiting) (hr : ready y) :
    ∀ (i : Nat) (a : job_t), y.sh.jobs[i]? = some a → a.state ≠ FG := by
  intro i a hi hst
  have hw := hf i a hi hst
  unfold ready at hr
  rw [hw] at hr
  simp only [slot_eq hi] at hr
  exact hr hst

/-- The table after `addjob` is the old table, or the old table with the first free
slot filled by the new job. -/
theorem addjob_jobs (s : Sh) (pid state : Int) (cmdline : String) :
    (addjob s pid state cmdline).1.jobs = s.jobs ∨
    ∃ i, scan (fun j => j.pid == 0) s.jobs = some i ∧ 1 ≤ pid ∧
      (addjob s pid state cmdline).1.jobs =
        s.jobs.set i { pid := pid, jid := s.nextjid, state := state, cmdline := cmdline } := by
  unfold addjob
  by_cases hp : pid < 1
  · simp [hp]
  · cases hs : scan (fun j => j.pid == 0) s.jobs with
    | none => simp [hp]
    | some i => right; exact ⟨i, rfl, by omega, by simp [hp]⟩

theorem launch_inv {s s1 : Sh} {pidVal : Int} {backg : Bool} {cmdline : String} {w : Wait}
    (hno : ∀ (i : Nat) (a : job_t), s.jobs[i]? = some a → a.state ≠ FG)
    (hd : DistinctPids s.jobs) (hfresh : ∀ j ∈ s.jobs, j.pid ≠ pidVal)
    (h : eval_parent s pidVal backg cmdline = some (s1, w)) :
    DistinctPids s1.jobs ∧ FgWaited s1.jobs (waitSlot w) := by
  have hdist : ∀ (st : Int) (i : Nat),
      DistinctPids (s.jobs.set i { pid := pidVal, jid := s.nextjid, state := st, cmdline := cmdline }) :=
    fun st i => distinct_set hd (fun j c _ hc _ => hfresh c (List.getElem?_mem hc))
  unfold eval_parent at h
  cases backg with
  | false =>
    simp only [if_true, Option.map_eq_some'] at h
    obtain ⟨w1, hw, he⟩ := h
    simp only [Prod.mk.injEq] at he
    obtain ⟨rfl, rfl⟩ := he
    rcases addjob_jobs s pidVal FG cmdline with e | ⟨i, hi, hp, e⟩
    · rw [e]; exact ⟨hd, fgWaited_of_noFG _ hno⟩
    · refine ⟨e ▸ hdist FG i, ?_⟩
      have hlt := scan_lt hi
      have hget : (addjob s pidVal FG cmdline).1.jobs[i]? =
          some { pid := pidVal, jid := s.nextjid, state := FG, cmdline := cmdline } := by
        rw [e, List.getElem?_set]; simp [hlt]
      have hscan : scan (fun j => j.pid == pidVal) (addjob s pidVal FG cmdline).1.jobs = some i := by
        apply scan_eq_some hget (by simp)
        intro k b hk hb
        rw [e, List.getElem?_set_ne (by omega)] at hb
        simpa using hfresh b (List.getElem?_mem hb)
      have hnp : ¬ pidVal < 1 := by omega
      simp only [waitfg, getprocessid, hnp, if_false, hscan, slot_eq hget, if_true,
        Option.some.injEq] at hw
      subst hw
      intro k c hk hc
      rw [e] at hk
      rcases set_getElem?_some hk with ⟨rfl, _⟩ | ⟨_, g⟩
      · rfl
      · exact absurd hc (hno k c g)
  | true =>
    simp only [Bool.true_eq_false, if_false] at h
    cases hg : getjobid (addjob s pidVal BG cmdline).1.jobs
        (get_jid_from_pid (addjob s pidVal BG cmdline).1.jobs pidVal) with
    | none => simp [hg] at h
    | some k =>
      simp only [hg, Option.some.injEq, Prod.mk.injEq] at h
      obtain ⟨rfl, rfl⟩ := h
      show DistinctPids (addjob s pidVal BG cmdline).1.jobs ∧
        FgWaited (addjob s pidVal BG cmdline).1.jobs _
      rcases addjob_jobs s pidVal BG cmdline with e | ⟨i, _, _, e⟩
      · rw [e]; exact ⟨hd, fgWaited_of_noFG _ hno⟩
      · rw [e]
        refine ⟨hdist BG i, fgWaited_set i (fgWaited_of_noFG _ hno) ?_⟩
        show BG ≠ FG
        decide

theorem resume_inv {s s1 : Sh} {argv0 : String} {k : Nat} {pidVal : Int} {a : job_t} {w : Wait}
    (hno : ∀ (i : Nat) (a : job_t), s.jobs[i]? = some a → a.state ≠ FG)
    (hd : DistinctPids s.jobs) (hk : s.jobs[k]? = some a) (hpid : a.pid = pidVal)
    (h : do_bgfg_resume s argv0 k pidVal = some (s1, w)) :
    DistinctPids s1.jobs ∧ FgWaited s1.jobs (waitSlot w) := by
  unfold do_bgfg_resume at h
  by_cases hbg : argv0 = "bg"
  · simp only [hbg, if_true, Option.some.injEq, Prod.mk.injEq] at h
    obtain ⟨rfl, rfl⟩ := h
    exact ⟨distinct_setState k BG hd,
      fgWaited_setState k (fgWaited_of_noFG _ hno) (by decide)⟩
  · simp only [hbg, if_false, Option.map_eq_some'] at h
    obtain ⟨w1, hw, he⟩ := h
    simp only [Prod.mk.injEq] at he
    obtain ⟨rfl, rfl⟩ := he
    have hd1 : DistinctPids (setState s.jobs k FG) := distinct_setState k FG hd
    refine ⟨hd1, ?_⟩
    have hlt : k < s.jobs.length := (List.getElem?_eq_some.1 hk).1
    have hgetk : (setState s.jobs k FG)[k]? = some { a with state := FG } := by
      unfold setState; rw [List.getElem?_set]; simp [hlt, slot_eq hk]
    simp only [waitfg, getprocessid] at hw
    by_cases hp : pidVal < 1
    · simp [hp] at hw
    · simp only [hp, if_false] at hw
      cases hm : scan (fun j => j.pid == pidVal) (setState s.jobs k FG) with
      | none => simp [hm] at hw
      | some m =>
        obtain ⟨c, hc, hcp⟩ := scan_some hm
        have hcp1 : c.pid = pidVal := by simpa using hcp
        have hmk : m = k :=
          hd1 m k c _ hc hgetk (by rw [hcp1]; omega) (by rw [hcp1]; exact hpid.symm)
        subst hmk
        simp only [hm, slot_eq hgetk, if_true, Option.some.injEq] at hw
        subst hw
        intro i c1 hi hc1
        unfold setState at hi
        rcases set_getElem?_some hi with ⟨rfl, _⟩ | ⟨_, g⟩
        · rfl
        · exact absurd hc1 (hno i c1 g)

theorem bgfg_inv {s s1 : Sh} {atoi : String → Int} {argv0 : String} {argv1 : Option String}
    {w : Wait}
    (hno : ∀ (i : Nat) (a : job_t), s.jobs[i]? = some a → a.state ≠ FG)
    (hd : DistinctPids s.jobs) (h : do_bgfg atoi s argv0 argv1 = some (s1, w)) :
    DistinctPids s1.jobs ∧ FgWaited s1.jobs (waitSlot w) := by
  unfold do_bgfg at h
  cases argv1 with
  | none =>
    simp only [Option.some.injEq, Prod.mk.injEq] at h
    obtain ⟨rfl, rfl⟩ := h
    exact ⟨hd, fgWaited_of_noFG _ hno⟩
  | some a =>
    simp only at h
    by_cases hdig : (firstChar a).isDigit = true
    · simp only [hdig, if_true] at h
      cases hg : getprocessid s.jobs (atoi a) with
      | none =>
        simp only [hg, Option.some.injEq, Prod.mk.injEq] at h
        obtain ⟨rfl, rfl⟩ := h
        exact ⟨hd, fgWaited_of_noFG _ hno⟩
      | some k =>
        simp only [hg] at h
        unfold getprocessid at hg
        by_cases hp : atoi a < 1
        · simp [hp] at hg
        · simp only [hp, if_false] at hg
          obtain ⟨c, hc, hcp⟩ := scan_some hg
          exact resume_inv hno hd hc (by simpa using hcp) h
    · simp only [hdig, Bool.false_eq_true, if_false] at h
      by_cases hJ : firstChar a = 'J'
      · simp only [hJ, if_true] at h
        cases hg : getjobid s.jobs (atoi (a.drop 1)) with
        | none =>
          simp only [hg, Option.some.injEq, Prod.mk.injEq] at h
          obtain ⟨rfl, rfl⟩ := h
          exact ⟨hd, fgWaited_of_noFG _ hno⟩
        | some k =>
          simp only [hg] at h
          unfold getjobid at hg
          by_cases hp : atoi (a.drop 1) < 1
          · simp [hp] at hg
          · simp only [hp, if_false] at hg
            obtain ⟨c, hc, _⟩ := scan_some hg
            exact resume_inv hno hd hc (by rw [slot_eq hc]) h
      · simp only [hJ, if_false, Option.some.injEq, Prod.mk.injEq] at h
        obtain ⟨rfl, rfl⟩ := h
        exact ⟨hd, fgWaited_of_noFG _ hno⟩

theorem mem_initSh {verbose : Bool} {a : job_t} (h : a ∈ (initSh verbose).jobs) :
    a = clearedJob := by
  simp only [initSh, initjobs, List.mem_map] at h
  obtain ⟨_, _, rfl⟩ := h
  rfl

theorem step_inv {y y1 : Sys} (hs : FreshStep y y1)
    (h : DistinctPids y.sh.jobs ∧ FgWaited y.sh.jobs y.waiting) :
    DistinctPids y1.sh.jobs ∧ FgWaited y1.sh.jobs y1.waiting := by
  cases hs with
  | launch pidVal backg cmdline s1 w hr hfresh he =>
    exact launch_inv (noFG_of_ready h.2 hr) h.1 hfresh he
  | bgfg atoi argv0 argv1 s1 w hr he => exact bgfg_inv (noFG_of_ready h.2 hr) h.1 he
  | sigchld reaped s1 he => exact sigchld_inv y.waiting reaped he h
  | sigint =>
    have e : (sigint_handler y.sh).jobs = y.sh.jobs := by
      by_cases hz : fgpid y.sh.jobs = 0 <;> simp [sigint_handler, hz]
    show DistinctPids (sigint_handler y.sh).jobs ∧ FgWaited (sigint_handler y.sh).jobs y.waiting
    rw [e]; exact h
  | sigtstp s1 he => exact sigtstp_inv y.waiting he h
  | sigalrm =>
    have e : (sigalrm_handler y.sh).jobs = y.sh.jobs := by
      by_cases hz : maxjid y.sh.jobs = 0 <;> simp [sigalrm_handler, hz]
    show DistinctPids (sigalrm_handler y.sh).jobs ∧ FgWaited (sigalrm_handler y.sh).jobs y.waiting
    rw [e]; exact h

theorem reachable_inv {y : Sys} (hr : FreshReachable y) :
    DistinctPids y.sh.jobs ∧ FgWaited y.sh.jobs y.waiting := by
  induction hr with
  | init verbose =>
    constructor
    · intro i j a b hi _ hne _
      exact absurd (by rw [mem_initSh (List.getElem?_mem hi)]; rfl) hne
    · intro i a hi hst
      rw [mem_initSh (List.getElem?_mem hi)] at hst
      exact absurd hst (by decide)
  | step y y1 _ hs ih => exact step_inv hs ih

/-- A step of `FreshStep` is a step of the shell. -/
theorem step_of_freshStep {y y1 : Sys} (hs : FreshStep y y1) : Step y y1 := by
  cases hs with
  | launch pidVal backg cmdline s1 w hr _ he => exact Step.launch y pidVal backg cmdline s1 w hr he
  | bgfg atoi argv0 argv1 s1 w hr he => exact Step.bgfg y atoi argv0 argv1 s1 w hr he
  | sigchld reaped s1 he => exact Step.sigchld y reaped s1 he
  | sigint => exact Step.sigint y
  | sigtstp s1 he => exact Step.sigtstp y s1 he
  | sigalrm => exact Step.sigalrm y

theorem reachable_of_freshReachable {y : Sys} (hr : FreshReachable y) : Reachable y := by
  induction hr with
  | init verbose => exact Reachable.init verbose
  | step y y1 _ hs ih => exact Reachable.step y y1 ih (step_of_freshStep hs)

/-- The state after launching one foreground job (pid 5) from the empty table. -/
theorem reachable_one_fg :
    FreshReachable { sh := ((addjob (initSh false) 5 FG "sleep 5\n").1), waiting := some 0 } :=
  FreshReachable.step _ _ (FreshReachable.init false)
    (FreshStep.launch { sh := initSh false, waiting := none } 5 false "sleep 5\n" _
      (Wait.blocked 0) trivial (by decide) (by decide))

/-- As long as every launch gets a pid that no slot of the table holds, at most one
slot is in state `FG`. -/
theorem at_most_one_foreground_of_fresh (y : Sys) (hr : FreshReachable y) :
    countFG y.sh.jobs ≤ 1 :=
  countFG_le_one (reachable_inv hr).2

/-- C1. Two foreground jobs are reachable. The child of `true &` (pid 5) exits and
`sigchld_handler` reaps it before `addjob` registers it, so `removejob` finds nothing
and slot 0 keeps pid 5 in state `BG`; the child of `cat` gets pid 5 again and goes to
slot 1 in state `FG`, but `waitfg(5)` polls slot 0 and returns at once; the main flow
then launches `vi` (pid 6) in the foreground: slots 1 and 2 are both in state `FG`. -/
theorem two_foreground_jobs_reachable :
    sigchld_handler (initSh false) [(5, Status.exited 0)] = some (initSh false) ∧
    waitfg (launched (launched (initSh false) 5 true "true &\n") 5 false "cat\n") 5 =
      some Wait.returned ∧
    Reachable { sh := raceSh, waiting := some 2 } ∧
    raceSh.jobs[0]? = some { pid := 5, jid := 1, state := BG, cmdline := "true &\n" } ∧
    raceSh.jobs[1]? = some { pid := 5, jid := 2, state := FG, cmdline := "cat\n" } ∧
    raceSh.jobs[2]? = some { pid := 6, jid := 3, state := FG, cmdline := "vi\n" } ∧
    countFG raceSh.jobs = 2 := by
  have h0 : Reachable { sh := initSh false, waiting := none } :=
    Reachable.step _ _ (Reachable.init false)
      (Step.sigchld { sh := initSh false, waiting := none } [(5, Status.exited 0)]
        (initSh false) (by decide))
  have h1 : Reachable { sh := launched (initSh false) 5 true "true &\n", waiting := none } :=
    Reachable.step _ _ h0
      (Step.launch { sh := initSh false, waiting := none } 5 true "true &\n" _ Wait.returned
        trivial (by decide))
  have h2 : Reachable
      { sh := launched (launched (initSh false) 5 true "true &\n") 5 false "cat\n",
        waiting := none } :=
    Reachable.step _ _ h1
      (Step.launch { sh := launched (initSh false) 5 true "true &\n", waiting := none }
        5 false "cat\n" _ Wait.returned trivial (by decide))
  have h3 : Reachable { sh := raceSh, waiting := some 2 } :=
    Reachable.step _ _ h2
      (Step.launch
        { sh := launched (launched (initSh false) 5 true "true &\n") 5 false "cat\n",
          waiting := none }
        6 false "vi\n" _ (Wait.blocked 2) trivial (by decide))
  exact ⟨by decide, by decide, h3, by decide, by decide, by decide, by decide⟩

/-! ## Free slots stay cleared -/

theorem freeCleared_set {l : List job_t} (i : Nat) {b : job_t} (h : FreeCleared l)
    (hb : b.pid = 0 → b.jid = 0) : FreeCleared (l.set i b) := by
  intro j hj hz
  rcases List.mem_or_eq_of_mem_set hj with hm | rfl
  · exact h j hm hz
  · exact hb hz

theorem freeCleared_setState {l : List job_t} (k : Nat) (st : Int) (h : FreeCleared l) :
    FreeCleared (setState l k st) := by
  unfold setState
  apply freeCleared_set k h
  cases hk : l[k]? with
  | none => intro _; simp [slot, hk, clearedJob]
  | some a =>
    rw [slot_eq hk]
    exact h a (List.getElem?_mem hk)

theorem removejob_freeCleared (s : Sh) (pid : Int) (h : FreeCleared s.jobs) :
    FreeCleared (removejob s pid).1.jobs := by
  rcases removejob_jobs s pid with e | ⟨i, e⟩
  · rw [e]; exact h
  · rw [e]; exact freeCleared_set i h (fun _ => rfl)

theorem sigtstp_freeCleared {s s1 : Sh} (hs : sigtstp_handler s = some s1)
    (h : FreeCleared s.jobs) : FreeCleared s1.jobs := by
  rcases sigtstp_jobs hs with e | ⟨k, e⟩
  · rw [e]; exact h
  · rw [e]; exact freeCleared_setState k ST h

theorem sigchld_freeCleared :
    ∀ (reaped : List (Int × Status)) {s s1 : Sh}, sigchld_handler s reaped = some s1 →
      FreeCleared s.jobs → FreeCleared s1.jobs := by
  intro reaped
  induction reaped with
  | nil => intro s s1 hs h; simp [sigchld_handler] at hs; rw [← hs]; exact h
  | cons ev rest ih =>
    intro s s1 hs h
    obtain ⟨pidVal, stVal⟩ := ev
    unfold sigchld_handler at hs
    by_cases hp : pidVal > 0
    · simp only [hp, if_true] at hs
      cases hb : sigchld_body s pidVal stVal with
      | none => simp [hb] at hs
      | some s2 =>
        simp only [hb] at hs
        apply ih hs
        cases stVal with
        | signaled sig =>
          simp only [sigchld_body, Option.some.injEq] at hb
          rw [← hb]
          exact removejob_freeCleared _ pidVal h
        | stopped sig =>
          simp only [sigchld_body] at hb
          exact sigtstp_freeCleared hb h
        | exited code =>
          simp only [sigchld_body, Option.some.injEq] at hb
          rw [← hb]
          exact removejob_freeCleared _ pidVal h
    · simp [hp] at hs; rw [← hs]; exact h

theorem addjob_freeCleared (s : Sh) (pid state : Int) (cmdline : String)
    (h : FreeCleared s.jobs) : FreeCleared (addjob s pid state cmdline).1.jobs := by
  rcases addjob_jobs s pid state cmdline with e | ⟨i, _, hp, e⟩
  · rw [e]; exact h
  · rw [e]
    apply freeCleared_set i h
    intro hz
    have hz1 : pid = 0 := hz
    omega

theorem eval_parent_freeCleared {s s1 : Sh} {pidVal : Int} {backg : Bool} {cmdline : String}
    {w : Wait} (he : eval_parent s pidVal backg cmdline = some (s1, w))
    (h : FreeCleared s.jobs) : FreeCleared s1.jobs := by
  unfold eval_parent at he
  cases backg with
  | false =>
    simp only [if_true, Option.map_eq_some'] at he
    obtain ⟨w1, _, e⟩ := he
    simp only [Prod.mk.injEq] at e
    obtain ⟨rfl, _⟩ := e
    exact addjob_freeCleared s pidVal FG cmdline h
  | true =>
    simp only [Bool.true_eq_false, if_false] at he
    cases hg : getjobid (addjob s pidVal BG cmdline).1.jobs
        (get_jid_from_pid (addjob s pidVal BG cmdline).1.jobs pidVal) with
    | none => simp [hg] at he
    | some k =>
      simp only [hg, Option.some.injEq, Prod.mk.injEq] at he
      obtain ⟨rfl, _⟩ := he
      exact addjob_freeCleared s pidVal BG cmdline h

/-- The table after `do_bgfg` is the old table, or the old table with the state of one
slot overwritten. -/
theorem do_bgfg_jobs {atoi : String → Int} {s s1 : Sh} {argv0 : String}
    {argv1 : Option String} {w : Wait} (h : do_bgfg atoi s argv0 argv1 = some (s1, w)) :
    s1.jobs = s.jobs ∨ ∃ k st, s1.jobs = setState s.jobs k st := by
  have hres : ∀ (k : Nat) (pidVal : Int), do_bgfg_resume s argv0 k pidVal = some (s1, w) →
      ∃ k st, s1.jobs = setState s.jobs k st := by
    intro k pidVal hr
    unfold do_bgfg_resume at hr
    by_cases hbg : argv0 = "bg"
    · simp only [hbg, if_true, Option.some.injEq, Prod.mk.injEq] at hr
      obtain ⟨rfl, _⟩ := hr
      exact ⟨k, BG, rfl⟩
    · simp only [hbg, if_false, Option.map_eq_some'] at hr
      obtain ⟨w1, _, e⟩ := hr
      simp only [Prod.mk.injEq] at e
      obtain ⟨rfl, _⟩ := e
      exact ⟨k, FG, rfl⟩
  unfold do_bgfg at h
  cases argv1 with
  | none =>
    simp only [Option.some.injEq, Prod.mk.injEq] at h
    obtain ⟨rfl, _⟩ := h
    exact Or.inl rfl
  | some a =>
    simp only at h
    by_cases hdig : (firstChar a).isDigit = true
    · simp only [hdig, if_true] at h
      cases hg : getprocessid s.jobs (atoi a) with
      | none =>
        simp only [hg, Option.some.injEq, Prod.mk.injEq] at h
        obtain ⟨rfl, _⟩ := h
        exact Or.inl rfl
      | some k =>
        simp only [hg] at h
        exact Or.inr (hres k _ h)
    · simp only [hdig, Bool.false_eq_true, if_false] at h
      by_cases hJ : firstChar a = 'J'
      · simp only [hJ, if_true] at h
        cases hg : getjobid s.jobs (atoi (a.drop 1)) with
        | none =>
          simp only [hg, Option.some.injEq, Prod.mk.injEq] at h
          obtain ⟨rfl, _⟩ := h
          exact Or.inl rfl
        | some k =>
          simp only [hg] at h
          exact Or.inr (hres k _ h)
      · simp only [hJ, if_false, Option.some.injEq, Prod.mk.injEq] at h
        obtain ⟨rfl, _⟩ := h
        exact Or.inl rfl

/-- In every state the shell reaches, the free slots of the table are cleared. -/
theorem reachable_freeCleared {y : Sys} (hr : Reachable y) : FreeCleared y.sh.jobs := by
  induction hr with
  | init verbose =>
    intro j hj _
    rw [mem_initSh hj]
    rfl
  | step y y1 _ hs ih =>
    cases hs with
    | launch pidVal backg cmdline s1 w _ he => exact eval_parent_freeCleared he ih
    | bgfg atoi argv0 argv1 s1 w _ he =>
      rcases do_bgfg_jobs he with e | ⟨k, st, e⟩
      · show FreeCleared s1.jobs
        rw [e]; exact ih
      · show FreeCleared s1.jobs
        rw [e]; exact freeCleared_setState k st ih
    | sigchld reaped s1 he => exact sigchld_freeCleared reaped he ih
    | sigint =>
      have e : (sigint_handler y.sh).jobs = y.sh.jobs := by
        by_cases hz : fgpid y.sh.jobs = 0 <;> simp [sigint_handler, hz]
      show FreeCleared (sigint_handler y.sh).jobs
      rw [e]; exact ih
    | sigtstp s1 he => exact sigtstp_freeCleared he ih
    | sigalrm =>
      have e : (sigalrm_handler y.sh).jobs = y.sh.jobs := by
        by_cases hz : maxjid y.sh.jobs = 0 <;> simp [sigalrm_handler, hz]
      show FreeCleared (sigalrm_handler y.sh).jobs
      rw [e]; exact ih

/-! ## The code at concrete tables: jid wraparound, stop handling, timed broadcast,
launch on a full table -/

/-- C2. After the calls `wrapOps` (addjob with distinct positive pids, one removejob)
the job in slot 0 (pid 1) and the job in slot 15 (pid 17) are both live and both have
jid 1, so the jids of the live jobs are not pairwise distinct. -/
theorem jid_collision_after_wraparound :
    wrapSh.jobs[0]? = some { pid := 1, jid := 1, state := BG, cmdline := "sleep 100 &\n" } ∧
    wrapSh.jobs[15]? = some { pid := 17, jid := 1, state := FG, cmdline := "sleep 100\n" } ∧
    ¬ DistinctJids wrapSh.jobs := by
  have h0 : wrapSh.jobs[0]? =
      some { pid := 1, jid := 1, state := BG, cmdline := "sleep 100 &\n" } := by decide
  have h15 : wrapSh.jobs[15]? =
      some { pid := 17, jid := 1, state := FG, cmdline := "sleep 100\n" } := by decide
  refine ⟨h0, h15, fun hd => ?_⟩
  have := hd 0 15 _ _ h0 h15 (by decide) (by decide) rfl
  omega

/-- C3. On the table `wrapSh`, whose only foreground job is pid 17 (slot 15, jid 1),
`sigtstp_handler` sends SIGTSTP to group -17 but writes `ST` into slot 0, the
background job pid 1 that has the same jid; slot 15 stays `FG` and `fgpid` still
returns 17 afterwards. -/
theorem sigtstp_marks_other_job :
    fgpid wrapSh.jobs = 17 ∧ countFG wrapSh.jobs = 1 ∧
    sigtstp_handler wrapSh =
      some { wrapSh with kills := [(-17, Sig.SIGTSTP)], jobs := setState wrapSh.jobs 0 ST } ∧
    (setState wrapSh.jobs 0 ST)[0]? =
      some { pid := 1, jid := 1, state := ST, cmdline := "sleep 100 &\n" } ∧
    (setState wrapSh.jobs 0 ST)[15]? =
      some { pid := 17, jid := 1, state := FG, cmdline := "sleep 100\n" } ∧
    fgpid (setState wrapSh.jobs 0 ST) = 17 := by
  decide

/-- C4. On the table `bgFgSh` (background pid 20 in slot 0, foreground pid 10 in
slot 1), when `sigchld_handler` reaps "pid 20 stopped by signal 20" it prints the stop
notice for job 1, sends SIGTSTP to group -10 and writes `ST` into the slot of pid 10;
the slot of the stopped child pid 20 keeps state `BG`. -/
theorem sigchld_stop_hits_foreground :
    bgFgSh.jobs[0]? = some { pid := 20, jid := 1, state := BG, cmdline := "sleep 100 &\n" } ∧
    bgFgSh.jobs[1]? = some { pid := 10, jid := 2, state := FG, cmdline := "cat\n" } ∧
    sigchld_handler bgFgSh [(20, Status.stopped 20)] =
      some { bgFgSh with out := ["Job [1] (20) stopped by signal 20\n"],
                         kills := [(-10, Sig.SIGTSTP)],
                         jobs := setState bgFgSh.jobs 1 ST } ∧
    (setState bgFgSh.jobs 1 ST)[0]? =
      some { pid := 20, jid := 1, state := BG, cmdline := "sleep 100 &\n" } ∧
    (setState bgFgSh.jobs 1 ST)[1]? =
      some { pid := 10, jid := 2, state := ST, cmdline := "cat\n" } := by
  decide

/-- C5. `sigalrm_handler` sends nothing on the table `gapSh`, whose only live job
(pid 20) has jid 2, and on the full table `fullSh` it signals the jobs with jids 1..15
but not the job with jid 16 (pid 16). -/
theorem sigalrm_misses_jobs :
    gapSh.jobs[1]? = some { pid := 20, jid := 2, state := BG, cmdline := "sleep 100 &\n" } ∧
    (sigalrm_handler gapSh).kills = [] ∧
    fullSh.jobs[15]? = some { pid := 16, jid := 16, state := BG, cmdline := "sleep 100 &\n" } ∧
    (sigalrm_handler fullSh).kills =
      (List.range' 1 15).map (fun p => ((p : Int), Sig.SIGINT)) ∧
    ((16 : Int), Sig.SIGINT) ∉ (sigalrm_handler fullSh).kills := by
  decide

/-- On every table without a free slot, for every pid that no slot holds, the parent
side of `eval` dereferences `NULL`, whichever way the job is launched. -/
theorem eval_parent_full_none (s : Sh) (pidVal : Int) (backg : Bool) (cmdline : String)
    (hfull : ∀ j ∈ s.jobs, j.pid ≠ 0) (hfresh : ∀ j ∈ s.jobs, j.pid ≠ pidVal) :
    eval_parent s pidVal backg cmdline = none := by
  have hjobs : ∀ st, (addjob s pidVal st cmdline).1.jobs = s.jobs := by
    intro st
    by_cases hp : pidVal < 1
    · simp [addjob, hp]
    · simp [addjob, hp, scan_eq_none (p := fun j => j.pid == 0) (l := s.jobs)
        (fun a ha => by simpa using hfull a ha)]
  have hscan : scan (fun j => j.pid == pidVal) s.jobs = none :=
    scan_eq_none (fun a ha => by simpa using hfresh a ha)
  have hget : getprocessid s.jobs pidVal = none := by
    unfold getprocessid; split <;> simp [hscan]
  have hjid : get_jid_from_pid s.jobs pidVal = 0 := by
    unfold get_jid_from_pid; split <;> simp [hscan]
  cases backg with
  | false => simp [eval_parent, waitfg, hjobs, hget]
  | true => simp [eval_parent, hjobs, hjid, getjobid]

/-- C6. With the full table `fullSh` and a new child pid 100, `addjob` prints the
diagnostic, returns 0 and leaves the table and `nextjid` unchanged, and then the
parent side of `eval` dereferences `NULL`, for a foreground launch (in `waitfg`) and
for a background launch (at the announcement): it has no result. -/
theorem eval_full_table_null_deref :
    (∀ j ∈ fullSh.jobs, j.pid ≠ 0) ∧ fullSh.jobs.length = MAXJOBS ∧
    addjob fullSh 100 FG "ls\n" =
      ({ fullSh with out := ["Tried to create too many jobs\n"] }, 0) ∧
    getprocessid (addjob fullSh 100 FG "ls\n").1.jobs 100 = none ∧
    eval_parent fullSh 100 false "ls\n" = none ∧
    getjobid (addjob fullSh 100 BG "ls &\n").1.jobs
      (get_jid_from_pid (addjob fullSh 100 BG "ls &\n").1.jobs 100) = none ∧
    eval_parent fullSh 100 true "ls &\n" = none := by
  decide

/-! ## The job list operations: `addjob`, `removejob` -/

theorem scan_free_iff {l : List job_t} :
    scan (fun j => j.pid == 0) l = none ↔ ∀ j ∈ l, j.pid ≠ 0 := by
  constructor
  · intro h j hj
    simpa using scan_none h j hj
  · intro h
    exact scan_eq_none (fun a ha => by simpa using h a ha)

/-- C7. Insert contract: for a pid of at least 1, `addjob` returns 0 exactly when no
slot has `pid == 0`, and then the table and `nextjid` are unchanged; otherwise it
returns 1 and the new table is the old one with the lowest-indexed free slot `i`
overwritten by `(pid, jid = old nextjid, state, cmdline)`: slot `i` holds that job and
every other slot is as before. -/
theorem addjob_contract (s : Sh) (pid state : Int) (cmdline : String) (hp : 1 ≤ pid) :
    ((addjob s pid state cmdline).2 = 0 ↔ ∀ j ∈ s.jobs, j.pid ≠ 0) ∧
    ((∀ j ∈ s.jobs, j.pid ≠ 0) →
      (addjob s pid state cmdline).1.jobs = s.jobs ∧
      (addjob s pid state cmdline).1.nextjid = s.nextjid) ∧
    ((∃ j ∈ s.jobs, j.pid = 0) →
      (addjob s pid state cmdline).2 = 1 ∧
      ∃ i, i < s.jobs.length ∧ (slot s.jobs i).pid = 0 ∧
        (∀ k, k < i → (slot s.jobs k).pid ≠ 0) ∧
        (addjob s pid state cmdline).1.jobs =
          s.jobs.set i { pid := pid, jid := s.nextjid, state := state, cmdline := cmdline } ∧
        (addjob s pid state cmdline).1.jobs[i]? =
          some { pid := pid, jid := s.nextjid, state := state, cmdline := cmdline } ∧
        ∀ k, k ≠ i → (addjob s pid state cmdline).1.jobs[k]? = s.jobs[k]?) := by
  have hnp : ¬ pid < 1 := by omega
  cases hs : scan (fun j => j.pid == 0) s.jobs with
  | none =>
    have hfull : ∀ j ∈ s.jobs, j.pid ≠ 0 := scan_free_iff.1 hs
    have e : addjob s pid state cmdline =
        ({ s with out := s.out ++ ["Tried to create too many jobs\n"] }, 0) := by
      simp [addjob, hnp, hs]
    refine ⟨?_, ?_, ?_⟩
    · rw [e]; exact ⟨fun _ => hfull, fun _ => rfl⟩
    · intro _; rw [e]; exact ⟨rfl, rfl⟩
    · rintro ⟨j, hj, hz⟩; exact absurd hz (hfull j hj)
  | some i =>
    have hnotfull : ¬ ∀ j ∈ s.jobs, j.pid ≠ 0 := by
      intro h
      rw [scan_free_iff.2 h] at hs
      exact Option.noConfusion hs
    have hret : (addjob s pid state cmdline).2 = 1 := by simp [addjob, hnp, hs]
    have hjobs : (addjob s pid state cmdline).1.jobs =
        s.jobs.set i { pid := pid, jid := s.nextjid, state := state, cmdline := cmdline } := by
      simp [addjob, hnp, hs]
    refine ⟨?_, ?_, ?_⟩
    · rw [hret]
      exact ⟨fun h => absurd h (by decide), fun h => absurd h hnotfull⟩
    · intro h; exact absurd h hnotfull
    · intro _
      obtain ⟨a, ha, hpa⟩ := scan_some hs
      have hlt := scan_lt hs
      refine ⟨hret, i, hlt, ?_, ?_, hjobs, ?_, ?_⟩
      · rw [slot_eq ha]; simpa using hpa
      · intro k hk
        have hk2 : k < s.jobs.length := by omega
        have hgk : s.jobs[k]? = some s.jobs[k] := List.getElem?_eq_getElem hk2
        rw [slot_eq hgk]
        simpa using scan_first hs k _ hk hgk
      · rw [hjobs, List.getElem?_set]; simp [hlt]
      · intro k hk
        rw [hjobs, List.getElem?_set_ne (fun e => hk e.symm)]

/-- The contract of C7 at the empty table: pid 5 is registered. -/
theorem addjob_contract_witness :
    (1 : Int) ≤ 5 ∧ (addjob (initSh false) 5 FG "sleep 5\n").2 = 1 :=
  ⟨by decide,
    ((addjob_contract (initSh false) 5 FG "sleep 5\n" (by decide)).2.2
      ⟨clearedJob, by decide, rfl⟩).1⟩

/-- C8. Remove is idempotent: on a table whose live pids are pairwise distinct, a
second `removejob(pid)` right after a first one returns 0 and leaves the whole shell
state (table, `nextjid`, output, signals) as the first call left it. -/
theorem removejob_idempotent (s : Sh) (pid : Int) (hd : DistinctPids s.jobs) :
    (removejob (removejob s pid).1 pid).2 = 0 ∧
    (removejob (removejob s pid).1 pid).1 = (removejob s pid).1 := by
  by_cases hp : pid < 1
  · simp [removejob, hp]
  · cases hs : scan (fun j => j.pid == pid) s.jobs with
    | none =>
      have e : removejob s pid = (s, 0) := by simp [removejob, hp, hs]
      rw [e]; simp [removejob, hp, hs]
    | some i =>
      have e : (removejob s pid).1 =
          { s with jobs := s.jobs.set i clearedJob,
                   nextjid := maxjid (s.jobs.set i clearedJob) + 1 } := by
        simp [removejob, hp, hs, clearjob]
      obtain ⟨a, ha, hpa⟩ := scan_some hs
      have hpa1 : a.pid = pid := by simpa using hpa
      have hnone : scan (fun j => j.pid == pid) (s.jobs.set i clearedJob) = none := by
        apply scan_eq_none
        intro b hb
        obtain ⟨k, hk⟩ := List.getElem?_of_mem hb
        rcases set_getElem?_some hk with ⟨_, rfl⟩ | ⟨hne, g⟩
        · have : (0 : Int) ≠ pid := by omega
          simpa [clearedJob] using this
        · have hbp : b.pid ≠ pid := by
            intro hb2
            exact hne (hd k i b a g ha (by omega) (by rw [hb2, hpa1]))
          simpa using hbp
      rw [e]
      simp [removejob, hp, hnone]

/-- The idempotence of C8 at the table with one foreground job, pid 5. -/
theorem removejob_idempotent_witness :
    DistinctPids (addjob (initSh false) 5 FG "sleep 5\n").1.jobs ∧
    (removejob (removejob (addjob (initSh false) 5 FG "sleep 5\n").1 5).1 5).2 = 0 :=
  ⟨(reachable_inv reachable_one_fg).1,
    (removejob_idempotent (addjob (initSh false) 5 FG "sleep 5\n").1 5
      (reachable_inv reachable_one_fg).1).1⟩

theorem getprocessid_of_distinct {l : List job_t} {k : Nat} {j : job_t}
    (hd : DistinctPids l) (hk : l[k]? = some j) (hpid : 1 ≤ j.pid) :
    getprocessid l j.pid = some k := by
  have hnp : ¬ j.pid < 1 := by omega
  simp only [getprocessid, hnp, if_false]
  apply scan_eq_some hk (by simp)
  intro m b hm hb
  have hne : b.pid ≠ j.pid := by
    intro e
    have := hd m k b j hb hk (by omega) e
    omega
  simpa using hne

theorem getjobid_of_distinct {l : List job_t} {k : Nat} {j : job_t}
    (hd : DistinctJids l) (hfree : FreeCleared l) (hk : l[k]? = some j)
    (hpid : j.pid ≠ 0) (hjid : 1 ≤ j.jid) :
    getjobid l j.jid = some k := by
  have hnp : ¬ j.jid < 1 := by omega
  simp only [getjobid, hnp, if_false]
  apply scan_eq_some hk (by simp)
  intro m b hm hb
  have hne : b.jid ≠ j.jid := by
    intro e
    by_cases hz : b.pid = 0
    · have := hfree b (List.getElem?_mem hb) hz
      omega
    · have := hd m k b j hb hk hz hpid e
      omega
  simpa using hne

theorem setState_eq_set {l : List job_t} {k : Nat} {j : job_t} (hk : l[k]? = some j)
    (st : Int) : setState l k st = l.set k { j with state := st } := by
  simp [setState, slot_eq hk]

theorem getElem?_setState {l : List job_t} {k : Nat} {j : job_t} (hk : l[k]? = some j)
    (st : Int) : (setState l k st)[k]? = some { j with state := st } := by
  have hlt : k < l.length := (List.getElem?_eq_some.1 hk).1
  rw [setState_eq_set hk, List.getElem?_set]
  simp [hlt]

/-- Lines 435-447 of `do_bgfg` on a table with pairwise distinct live pids, when `job`
points to the slot `k` of a job `j` with a positive pid and `pidVal` is that pid. -/
theorem do_bgfg_resume_of_distinct (s : Sh) (argv0 : String) (k : Nat) (j : job_t)
    (hdp : DistinctPids s.jobs) (hk : s.jobs[k]? = some j) (hpid : 1 ≤ j.pid) :
    do_bgfg_resume s argv0 k j.pid =
      if argv0 = "bg" then
        some ({ s with kills := s.kills ++ [(-j.pid, Sig.SIGCONT)],
                       out := s.out ++ [announce j.jid j.pid j.cmdline],
                       jobs := s.jobs.set k { j with state := BG } }, Wait.returned)
      else
        some ({ s with kills := s.kills ++ [(-j.pid, Sig.SIGCONT)],
                       jobs := s.jobs.set k { j with state := FG } }, Wait.blocked k) := by
  unfold do_bgfg_resume
  by_cases hbg : argv0 = "bg"
  · simp only [hbg, if_true, slot_eq hk, setState_eq_set hk]
  · simp only [hbg, if_false]
    have hget := getElem?_setState hk FG
    have hfind : getprocessid (setState s.jobs k FG) j.pid = some k :=
      getprocessid_of_distinct (j := { j with state := FG }) (distinct_setState k FG hdp)
        hget hpid
    rw [setState_eq_set hk] at hget hfind
    simp only [waitfg, setState_eq_set hk, hfind, slot_eq hget, if_true, Option.map_some']

/-- On a table whose live pids and live jids are pairwise distinct and whose free
slots are cleared, an argument that names the live job `j` of slot `k` (digits with
`atoi` equal to its pid, or `J` followed by its jid) makes `do_bgfg` send one SIGCONT
to the group `-j.pid` and change only the state of slot `k`: to `BG` with the
announcement for `bg`, to `FG` (and then `waitfg` polls slot `k`) otherwise. -/
theorem do_bgfg_success_of_distinct (atoi : String → Int) (s : Sh) (argv0 a : String)
    (k : Nat) (j : job_t) (hdp : DistinctPids s.jobs) (hdj : DistinctJids s.jobs)
    (hfree : FreeCleared s.jobs) (hk : s.jobs[k]? = some j) (hpid : 1 ≤ j.pid)
    (hjid : 1 ≤ j.jid)
    (hres : ((firstChar a).isDigit = true ∧ atoi a = j.pid) ∨
      (firstChar a = 'J' ∧ atoi (a.drop 1) = j.jid)) :
    do_bgfg atoi s argv0 (some a) =
      if argv0 = "bg" then
        some ({ s with kills := s.kills ++ [(-j.pid, Sig.SIGCONT)],
                       out := s.out ++ [announce j.jid j.pid j.cmdline],
                       jobs := s.jobs.set k { j with state := BG } }, Wait.returned)
      else
        some ({ s with kills := s.kills ++ [(-j.pid, Sig.SIGCONT)],
                       jobs := s.jobs.set k { j with state := FG } }, Wait.blocked k) := by
  rw [← do_bgfg_resume_of_distinct s argv0 k j hdp hk hpid]
  rcases hres with ⟨hdig, he⟩ | ⟨hJ, he⟩
  · have hfind := getprocessid_of_distinct hdp hk hpid
    simp only [do_bgfg, hdig, if_true, he, hfind]
  · have hnd : ('J').isDigit = false := by decide
    have hfind := getjobid_of_distinct hdj hfree hk (by omega) hjid
    simp only [do_bgfg, hJ, hnd, Bool.false_eq_true, if_false, if_true, he, hfind, slot_eq hk]

/-- C11. On the table `dupJidSh` the live background job pid 117 (slot 15) has jid 1,
so `J1` names it, but `do_bgfg` resolves `J1` to slot 0, the job pid 101 with the same
jid: `bg J1` sends SIGCONT to group -101 and announces job 101, `fg J1` sends SIGCONT
to group -101 and sets the state of pid 101 to `FG`; pid 117 gets no signal and keeps
its state. With the pid as argument (`fg 117`) the job is resumed as claimed. -/
theorem bgfg_jid_resolves_other_job :
    dupJidSh.jobs[0]? =
      some { pid := 101, jid := 1, state := BG, cmdline := "sleep 100 &\n" } ∧
    dupJidSh.jobs[15]? =
      some { pid := 117, jid := 1, state := BG, cmdline := "sleep 300 &\n" } ∧
    firstChar "J1" = 'J' ∧ c_atoi ("J1".drop 1) = 1 ∧
    do_bgfg c_atoi dupJidSh "bg" (some "J1") =
      some ({ dupJidSh with kills := [(-101, Sig.SIGCONT)],
                            out := ["[1] (101) sleep 100 &\n"],
                            jobs := setState dupJidSh.jobs 0 BG }, Wait.returned) ∧
    setState dupJidSh.jobs 0 BG = dupJidSh.jobs ∧
    do_bgfg c_atoi dupJidSh "fg" (some "J1") =
      some ({ dupJidSh with kills := [(-101, Sig.SIGCONT)],
                            jobs := setState dupJidSh.jobs 0 FG }, Wait.blocked 0) ∧
    (setState dupJidSh.jobs 0 FG)[0]? =
      some { pid := 101, jid := 1, state := FG, cmdline := "sleep 100 &\n" } ∧
    (setState dupJidSh.jobs 0 FG)[15]? =
      some { pid := 117, jid := 1, state := BG, cmdline := "sleep 300 &\n" } ∧
    do_bgfg c_atoi dupJidSh "fg" (some "117") =
      some ({ dupJidSh with kills := [(-117, Sig.SIGCONT)],
                            jobs := setState dupJidSh.jobs 15 FG }, Wait.blocked 15) := by
  decide

/-! ## `sigchld_handler`: the termination notice -/

/-- C12. On the table `bgFgSh`, when `sigchld_handler` reaps "pid 20 terminated by
signal 9" (and likewise by signal 15) it prints `Job [1] (20) terminated by signal 2`:
the text names signal 2 whatever signal the status carries. It is the claimed text
only when the child was terminated by signal 2. -/
theorem sigchld_notice_names_signal_2 :
    get_jid_from_pid bgFgSh.jobs 20 = 1 ∧
    (sigchld_handler bgFgSh [(20, Status.signaled 9)]).map (fun s => s.out) =
      some ["Job [1] (20) terminated by signal 2\n"] ∧
    (sigchld_handler bgFgSh [(20, Status.signaled 15)]).map (fun s => s.out) =
      some ["Job [1] (20) terminated by signal 2\n"] ∧
    (sigchld_handler bgFgSh [(20, Status.signaled 2)]).map (fun s => s.out) =
      some ["Job [" ++ toString (1 : Int) ++ "] (" ++ toString (20 : Int) ++
        ") terminated by signal " ++ toString (2 : Int) ++ "\n"] ∧
    "Job [1] (20) terminated by signal 2\n" ≠
      "Job [" ++ toString (1 : Int) ++ "] (" ++ toString (20 : Int) ++
        ") terminated by signal " ++ toString (9 : Int) ++ "\n" := by
  decide

/-! ## `sigint_handler` -/

theorem fgLive_set {l : List job_t} (i : Nat) {b : job_t} (h : FgLive l)
    (hb : b.state = FG → b.pid ≠ 0) : FgLive (l.set i b) := by
  intro j hj hst
  rcases List.mem_or_eq_of_mem_set hj with hm | rfl
  · exact h j hm hst
  · exact hb hst

theorem fgLive_setState {l : List job_t} (k : Nat) {st : Int} (h : FgLive l)
    (hst : st = FG → (slot l k).pid ≠ 0) : FgLive (setState l k st) :=
  fgLive_set k h hst

theorem removejob_fgLive (s : Sh) (pid : Int) (h : FgLive s.jobs) :
    FgLive (removejob s pid).1.jobs := by
  rcases removejob_jobs s pid with e | ⟨i, e⟩
  · rw [e]; exact h
  · rw [e]; exact fgLive_set i h (fun hst => absurd hst (by decide))

theorem sigtstp_fgLive {s s1 : Sh} (hs : sigtstp_handler s = some s1) (h : FgLive s.jobs) :
    FgLive s1.jobs := by
  rcases sigtstp_jobs hs with e | ⟨k, e⟩
  · rw [e]; exact h
  · rw [e]; exact fgLive_setState k h (fun hst => absurd hst (by decide))

theorem sigchld_fgLive :
    ∀ (reaped : List (Int × Status)) {s s1 : Sh}, sigchld_handler s reaped = some s1 →
      FgLive s.jobs → FgLive s1.jobs := by
  intro reaped
  induction reaped with
  | nil => intro s s1 hs h; simp [sigchld_handler] at hs; rw [← hs]; exact h
  | cons ev rest ih =>
    intro s s1 hs h
    obtain ⟨pidVal, stVal⟩ := ev
    unfold sigchld_handler at hs
    by_cases hp : pidVal > 0
    · simp only [hp, if_true] at hs
      cases hb : sigchld_body s pidVal stVal with
      | none => simp [hb] at hs
      | some s2 =>
        simp only [hb] at hs
        apply ih hs
        cases stVal with
        | signaled sig =>
          simp only [sigchld_body, Option.some.injEq] at hb
          rw [← hb]
          exact removejob_fgLive _ pidVal h
        | stopped sig =>
          simp only [sigchld_body] at hb
          exact sigtstp_fgLive hb h
        | exited code =>
          simp only [sigchld_body, Option.some.injEq] at hb
          rw [← hb]
          exact removejob_fgLive _ pidVal h
    · simp [hp] at hs; rw [← hs]; exact h

theorem addjob_fgLive (s : Sh) (pid state : Int) (cmdline : String) (h : FgLive s.jobs) :
    FgLive (addjob s pid state cmdline).1.jobs := by
  rcases addjob_jobs s pid state cmdline with e | ⟨i, _, hp, e⟩
  · rw [e]; exact h
  · rw [e]
    apply fgLive_set i h
    intro _ hz
    have hz1 : pid = 0 := hz
    omega

theorem eval_parent_fgLive {s s1 : Sh} {pidVal : Int} {backg : Bool} {cmdline : String}
    {w : Wait} (he : eval_parent s pidVal backg cmdline = some (s1, w))
    (h : FgLive s.jobs) : FgLive s1.jobs := by
  unfold eval_parent at he
  cases backg with
  | false =>
    simp only [if_true, Option.map_eq_some'] at he
    obtain ⟨w1, _, e⟩ := he
    simp only [Prod.mk.injEq] at e
    obtain ⟨rfl, _⟩ := e
    exact addjob_fgLive s pidVal FG cmdline h
  | true =>
    simp only [Bool.true_eq_false, if_false] at he
    cases hg : getjobid (addjob s pidVal BG cmdline).1.jobs
        (get_jid_from_pid (addjob s pidVal BG cmdline).1.jobs pidVal) with
    | none => simp [hg] at he
    | some k =>
      simp only [hg, Option.some.injEq, Prod.mk.injEq] at he
      obtain ⟨rfl, _⟩ := he
      exact addjob_fgLive s pidVal BG cmdline h

theorem do_bgfg_resume_fgLive {s s1 : Sh} {argv0 : String} {k : Nat} {pidVal : Int}
    {w : Wait} (hlive : (slot s.jobs k).pid ≠ 0)
    (he : do_bgfg_resume s argv0 k pidVal = some (s1, w)) (h : FgLive s.jobs) :
    FgLive s1.jobs := by
  unfold do_bgfg_resume at he
  by_cases hbg : argv0 = "bg"
  · simp only [hbg, if_true, Option.some.injEq, Prod.mk.injEq] at he
    obtain ⟨rfl, _⟩ := he
    exact fgLive_setState k h (fun hst => absurd hst (by decide))
  · simp only [hbg, if_false, Option.map_eq_some'] at he
    obtain ⟨w1, _, e⟩ := he
    simp only [Prod.mk.injEq] at e
    obtain ⟨rfl, _⟩ := e
    exact fgLive_setState k h (fun _ => hlive)

theorem do_bgfg_fgLive {atoi : String → Int} {s s1 : Sh} {argv0 : String}
    {argv1 : Option String} {w : Wait} (hfree : FreeCleared s.jobs)
    (he : do_bgfg atoi s argv0 argv1 = some (s1, w)) (h : FgLive s.jobs) :
    FgLive s1.jobs := by
  unfold do_bgfg at he
  cases argv1 with
  | none =>
    simp only [Option.some.injEq, Prod.mk.injEq] at he
    obtain ⟨rfl, _⟩ := he
    exact h
  | some a =>
    simp only at he
    by_cases hdig : (firstChar a).isDigit = true
    · simp only [hdig, if_true] at he
      cases hg : getprocessid s.jobs (atoi a) with
      | none =>
        simp only [hg, Option.some.injEq, Prod.mk.injEq] at he
        obtain ⟨rfl, _⟩ := he
        exact h
      | some k =>
        simp only [hg] at he
        unfold getprocessid at hg
        by_cases hp : atoi a < 1
        · simp [hp] at hg
        · simp only [hp, if_false] at hg
          obtain ⟨c, hc, hcp⟩ := scan_some hg
          have hcp1 : c.pid = atoi a := by simpa using hcp
          refine do_bgfg_resume_fgLive ?_ he h
          rw [slot_eq hc, hcp1]
          omega
    · simp only [hdig, Bool.false_eq_true, if_false] at he
      by_cases hJ : firstChar a = 'J'
      · simp only [hJ, if_true] at he
        cases hg : getjobid s.jobs (atoi (a.drop 1)) with
        | none =>
          simp only [hg, Option.some.injEq, Prod.mk.injEq] at he
          obtain ⟨rfl, _⟩ := he
          exact h
        | some k =>
          simp only [hg] at he
          unfold getjobid at hg
          by_cases hp : atoi (a.drop 1) < 1
          · simp [hp] at hg
          · simp only [hp, if_false] at hg
            obtain ⟨c, hc, hcj⟩ := scan_some hg
            have hcj1 : c.jid = atoi (a.drop 1) := by simpa using hcj
            refine do_bgfg_resume_fgLive ?_ he h
            rw [slot_eq hc]
            intro hz
            have := hfree c (List.getElem?_mem hc) hz
            omega
      · simp only [hJ, if_false, Option.some.injEq, Prod.mk.injEq] at he
        obtain ⟨rfl, _⟩ := he
        exact h

/-- In every state the shell reaches, a slot in state `FG` holds a live job. -/
theorem reachable_fgLive {y : Sys} (hr : Reachable y) : FgLive y.sh.jobs := by
  induction hr with
  | init verbose =>
    intro j hj hst
    rw [mem_initSh hj] at hst
    exact absurd hst (by decide)
  | step y y1 hy hs ih =>
    cases hs with
    | launch pidVal backg cmdline s1 w _ he => exact eval_parent_fgLive he ih
    | bgfg atoi argv0 argv1 s1 w _ he => exact do_bgfg_fgLive (reachable_freeCleared hy) he ih
    | sigchld reaped s1 he => exact sigchld_fgLive reaped he ih
    | sigint =>
      have e : (sigint_handler y.sh).jobs = y.sh.jobs := by
        by_cases hz : fgpid y.sh.jobs = 0 <;> simp [sigint_handler, hz]
      show FgLive (sigint_handler y.sh).jobs
      rw [e]; exact ih
    | sigtstp s1 he => exact sigtstp_fgLive he ih
    | sigalrm =>
      have e : (sigalrm_handler y.sh).jobs = y.sh.jobs := by
        by_cases hz : maxjid y.sh.jobs = 0 <;> simp [sigalrm_handler, hz]
      show FgLive (sigalrm_handler y.sh).jobs
      rw [e]; exact ih

/-- C13. InteractiveInterrupt targets only the foreground job: on a table whose `FG`
slots are live (as in every reachable state), `sigint_handler` leaves the table,
`nextjid` and the output unchanged; if some slot has state `FG` it sends exactly one
signal, SIGINT addressed to `-p` for the non-zero pid `p` of a slot in state `FG`; if
no slot has state `FG` it sends nothing. -/
theorem sigint_targets_foreground (s : Sh) (hlive : FgLive s.jobs) :
    (sigint_handler s).jobs = s.jobs ∧ (sigint_handler s).nextjid = s.nextjid ∧
    (sigint_handler s).out = s.out ∧
    ((∃ j ∈ s.jobs, j.state = FG) →
      ∃ j ∈ s.jobs, j.state = FG ∧ j.pid ≠ 0 ∧
        (sigint_handler s).kills = s.kills ++ [(-j.pid, Sig.SIGINT)]) ∧
    ((∀ j ∈ s.jobs, j.state ≠ FG) → (sigint_handler s).kills = s.kills) := by
  cases hs : scan (fun j => j.state == FG) s.jobs with
  | none =>
    have hz : fgpid s.jobs = 0 := by simp [fgpid, hs]
    have e : sigint_handler s = s := by simp [sigint_handler, hz]
    rw [e]
    refine ⟨rfl, rfl, rfl, ?_, fun _ => rfl⟩
    rintro ⟨j, hj, hst⟩
    have := scan_none hs j hj
    simp [hst] at this
  | some i =>
    obtain ⟨a, ha, hpa⟩ := scan_some hs
    have hst : a.state = FG := by simpa using hpa
    have hmem : a ∈ s.jobs := List.getElem?_mem ha
    have hpid : a.pid ≠ 0 := hlive a hmem hst
    have hfg : fgpid s.jobs = a.pid := by simp [fgpid, hs, slot_eq ha]
    have e : sigint_handler s = { s with kills := s.kills ++ [(-a.pid, Sig.SIGINT)] } := by
      simp [sigint_handler, hfg, hpid]
    rw [e]
    refine ⟨rfl, rfl, rfl, fun _ => ⟨a, hmem, hst, hpid, rfl⟩, ?_⟩
    intro hno
    exact absurd hst (hno a hmem)

/-- The statement of C13 on the table `bgFgSh`: one SIGINT, to the group of the
foreground job pid 10. -/
theorem sigint_targets_foreground_witness :
    FgLive bgFgSh.jobs ∧ (sigint_handler bgFgSh).jobs = bgFgSh.jobs ∧
    (sigint_handler bgFgSh).kills = [(-10, Sig.SIGINT)] :=
  ⟨by decide, (sigint_targets_foreground bgFgSh (by decide)).1, by decide⟩

end Tsh
